import Mathlib

/-!
Verification of the software-project-estimator simulation core.

The Python source is shallowly embedded: dates are integers counting days
from Monday 2019-12-30 (so `weekday d = d % 7` agrees with Python
`date.weekday()`, Monday = 0), Python floats are modelled as rationals,
fallible constructors return `Except`, and the per-iteration state machine
from `simulation/iteration.py` becomes a total step function on an explicit
context record.  Randomness (numpy draws) is supplied by an explicit oracle
of draw streams.  A raised Python exception is modelled by the `crashed`
flag on the context, which freezes the machine, or by an `Except` error.
-/

namespace SPE

/-- Calendar dates, encoded as the number of days since Monday 2019-12-30. -/
abbrev Date := Int

/-- Python `date.weekday()`: 0 = Monday .. 6 = Sunday. -/
def weekday (d : Date) : Int := d % 7

/-- Data model of `task.py` `Task` (the random `id_` and the display `name`
are omitted: no claim mentions them). -/
structure Task where
  optimistic : ℚ
  pessimistic : ℚ
  likely : ℚ
deriving DecidableEq

/-- `task.py` `Task.ensure_estimates_are_sane`, the pydantic pre root
validator: constructing a task fails with the corresponding message when an
estimate is out of order. -/
def mkTask (optimistic likely pessimistic : ℚ) : Except String Task :=
  if optimistic < 0 then
    .error "Optimistic estimate must be zero or more"
  else if likely < optimistic then
    .error "Likely estimate must be equal to or greater than the optimistic estimate"
  else if pessimistic < likely then
    .error "Pessimistic estimate must be equal to or greater than the likely estimate"
  else
    .ok { optimistic := optimistic, pessimistic := pessimistic, likely := likely }

/-- `task.py` `Task.average`. -/
def Task.average (t : Task) : ℚ :=
  (t.optimistic + t.pessimistic + 4 * t.likely) / 6

/-- `task.py` `Task.stddev`. -/
def Task.stddev (t : Task) : ℚ :=
  (t.pessimistic - t.optimistic) / 6

/-- `task.py` `Task.variance`: `math.sqrt(self.stddev)` (the square root of
the standard deviation, exactly as the source computes it). -/
noncomputable def Task.variance (t : Task) : ℝ :=
  Real.sqrt (t.stddev : ℝ)

/-- Data model of `task.py` `TaskGroup` (random `id_` omitted). -/
structure TaskGroup where
  name : String
  tasks : List Task
deriving DecidableEq

/-- Data model of `project.py` `Project`.  The field `is_holiday` abstracts
`Project.is_holiday`, i.e. the lookup into the external `holidays` package
for the configured `country_code`; the constant-false function models
`country_code = None`, for which the source always returns `False`. -/
structure Project where
  start_date : Date
  developer_count : ℕ
  weeks_off_per_year : ℚ
  weekly_work_days : List Int
  work_hours_per_day : ℚ
  communication_penalty : ℚ
  tasks : List Task
  task_groups : List TaskGroup
  is_holiday : Date → Bool

/-- `project.py` `Project.work_days_per_week`. -/
def Project.work_days_per_week (p : Project) : ℕ :=
  p.weekly_work_days.length

/-- `project.py` `Project.work_week_hours`. -/
def Project.work_week_hours (p : Project) : ℚ :=
  (p.work_days_per_week : ℚ) * p.work_hours_per_day

/-- `project.py` `Project.num_communication_channels`:
`int(developer_count * (developer_count - 1) / 2)`; the product of two
consecutive integers is even, so natural division is exact. -/
def Project.num_communication_channels (p : Project) : ℕ :=
  p.developer_count * (p.developer_count - 1) / 2

/-- `project.py` `Project.max_person_days_per_week`. -/
def Project.max_person_days_per_week (p : Project) : ℚ :=
  ((p.developer_count : ℚ) * p.work_week_hours
    - 2 * (p.num_communication_channels : ℚ) * p.communication_penalty)
    / p.work_hours_per_day

/-- `project.py` `Project.person_days_lost_to_holidays_this_week`: for each
of the 7 calendar days starting at `start_date`, a holiday adds
`developer_count` lost person days; `None` yields 0. -/
def Project.person_days_lost_to_holidays_this_week
    (p : Project) (start_date : Option Date) : ℕ :=
  match start_date with
  | none => 0
  | some d => ((List.range 7).countP (fun i => p.is_holiday (d + i))) * p.developer_count

/-- `project.py` `Project.working_days_this_week`: the days among the 7
starting at `start_date` whose weekday is a configured work day and which
are not holidays. -/
def Project.working_days_this_week (p : Project) (start_date : Date) : List Date :=
  ((List.range 7).map (fun i => start_date + (i : Int))).filter
    (fun d => decide (weekday d ∈ p.weekly_work_days) && !p.is_holiday d)

/-- `simulation/iteration.py` `IterationResultStatus`. -/
inductive IterationResultStatus
  | success
  | failure
deriving DecidableEq

/-- The attribute map a successful iteration carries
(`{"start_date": ..., "end_date": ...}`). -/
structure ResultAttributes where
  start_date : Date
  end_date : Date
deriving DecidableEq

/-- `simulation/iteration.py` `IterationResult`. -/
structure IterationResult where
  status : IterationResultStatus
  message : Option String
  attributes : Option ResultAttributes
deriving DecidableEq

/-- The random draws one iteration may consume.  `normal k` is the k-th
standard normal draw (numpy `normal(mu, sigma)` is modelled as
`mu + sigma * normal k`); `vacation w i` is the raw uniform draw for
developer `i` in the w-th call to the weekly vacation sampler. -/
structure Oracle where
  normal : ℕ → ℚ
  vacation : ℕ → ℕ → ℚ

/-- `iteration.py` `IterationContext.probabilistic_weekly_person_days_lost_to_vacations`:
with no project or a non-positive vacation allowance the answer is 0;
otherwise each developer whose uniform draw is at most 1 loses a full week
of `work_days_per_week` person days. -/
def probabilistic_weekly_person_days_lost_to_vacations
    (project : Option Project) (draw : ℕ → ℚ) : ℕ :=
  match project with
  | none => 0
  | some p =>
    if p.weeks_off_per_year ≤ 0 then 0
    else ((List.range p.developer_count).countP (fun i => draw i ≤ 1)) * p.work_days_per_week

/-- Sum of one normal draw per task, threading the index into the normal
draw stream. -/
def normal_draws_sum (z : ℕ → ℚ) : List Task → ℕ → ℚ
  | [], _ => 0
  | t :: ts, k => (t.average + t.stddev * z k) + normal_draws_sum z ts (k + 1)

/-- `iteration.py` `IterationContext.probabilistic_estimated_project_person_days`:
one normal draw per task, task-group tasks first, then the ungrouped
tasks. -/
def probabilistic_estimated_project_person_days
    (project : Option Project) (z : ℕ → ℚ) : ℚ :=
  match project with
  | none => 0
  | some p => normal_draws_sum z ((p.task_groups.map TaskGroup.tasks).flatten ++ p.tasks) 0

/-- The states of the iteration state machine in `simulation/iteration.py`. -/
inductive IterationState
  | uninitialized
  | calculatingWeeks
  | calculatingDays
  | finalizing
  | error
  | successful
deriving DecidableEq

/-- `iteration.py` `IterationContext`, plus: the current state object
(`_state`), a counter of vacation-sampler calls (indexing the oracle
stream), and a `crashed` flag modelling an uncaught Python exception
(the ZeroDivisionError reachable in CalculatingDays). -/
structure IterationContext where
  project : Option Project
  person_days_remaining : Option ℚ
  remainder_days : ℚ
  working_days_left : Option ℚ
  result : Option IterationResult
  current_date : Option Date
  provisional_result : Option IterationResult
  state : IterationState
  vacation_calls : ℕ
  crashed : Bool

/-- The context `Iteration.__init__` plus `run`'s initial
`transition_to(IterationStateUninitialized())` produce. -/
def initContext (project : Option Project) : IterationContext :=
  { project := project
    person_days_remaining := none
    remainder_days := 0
    working_days_left := none
    result := none
    current_date := none
    provisional_result := none
    state := .uninitialized
    vacation_calls := 0
    crashed := false }

/-- A failure result with a message and no attributes. -/
def failureResult (msg : String) : IterationResult :=
  { status := .failure, message := some msg, attributes := none }

/-- One call of `IterationContext.process`, i.e. `handle_process` of the
current state, translated arm by arm from `simulation/iteration.py`.  Once
a result is recorded or an exception was raised the machine is frozen
(Python `Iteration.run` stops looping, resp. the exception propagates). -/
def IterationContext.process (o : Oracle) (ctx : IterationContext) : IterationContext :=
  if ctx.result.isSome || ctx.crashed then ctx else
  match ctx.state with
  | .uninitialized =>
    match ctx.project with
    | none =>
      { ctx with provisional_result := some (failureResult "No project was provided.")
                 state := .error }
    | some p =>
      if p.tasks = [] ∧ p.task_groups = [] then
        { ctx with provisional_result := some (failureResult "No tasks were present in the project.")
                   state := .error }
      else
        { ctx with current_date := some p.start_date
                   person_days_remaining :=
                     some (probabilistic_estimated_project_person_days ctx.project o.normal)
                   state := .calculatingWeeks }
  | .calculatingWeeks =>
    match ctx.project with
    | none =>
      { ctx with provisional_result := some (failureResult "No project was provided.")
                 state := .error }
    | some p =>
      let vacation_days : ℕ :=
        probabilistic_weekly_person_days_lost_to_vacations ctx.project
          (o.vacation ctx.vacation_calls)
      let holiday_days : ℕ := p.person_days_lost_to_holidays_this_week ctx.current_date
      let raw : ℚ := p.max_person_days_per_week - (vacation_days : ℚ) - (holiday_days : ℚ)
      let cap : ℚ := if raw < 0 then 0 else raw
      match ctx.person_days_remaining with
      | some r =>
        if r ≤ cap then
          { ctx with vacation_calls := ctx.vacation_calls + 1
                     remainder_days := cap
                     state := .calculatingDays }
        else
          { ctx with vacation_calls := ctx.vacation_calls + 1
                     current_date := ctx.current_date.map (· + 7)
                     person_days_remaining := some (r - cap) }
      | none =>
        { ctx with vacation_calls := ctx.vacation_calls + 1
                   current_date := ctx.current_date.map (· + 7) }
  | .calculatingDays =>
    match ctx.project, ctx.current_date with
    | none, _ =>
      { ctx with provisional_result := some (failureResult "No project was provided.")
                 state := .error }
    | some _, none =>
      { ctx with provisional_result := some (failureResult "No current date was provided.")
                 state := .error }
    | some p, some d =>
      let remaining : ℚ := ctx.person_days_remaining.getD 0
      if ctx.working_days_left = none ∧ ctx.remainder_days = 0 then
        -- `person_days_remaining / remainder_days` raises ZeroDivisionError
        { ctx with person_days_remaining := some remaining, crashed := true }
      else
        let w : ℚ :=
          match ctx.working_days_left with
          | none => remaining / ctx.remainder_days * ((p.working_days_this_week d).length : ℚ)
          | some w0 => w0
        if weekday d ∉ p.weekly_work_days ∨ p.is_holiday d = true then
          { ctx with person_days_remaining := some remaining
                     working_days_left := some w
                     current_date := some (d + 1) }
        else
          { ctx with person_days_remaining := some remaining
                     working_days_left := some (w - 1)
                     current_date := some (d + 1)
                     state := if w - 1 ≤ 0 then .finalizing else .calculatingDays }
  | .finalizing =>
    match ctx.project, ctx.current_date with
    | none, _ =>
      { ctx with provisional_result := some (failureResult "No project was provided.")
                 state := .error }
    | some _, none =>
      { ctx with provisional_result := some (failureResult "No current date was provided.")
                 state := .error }
    | some p, some d =>
      if weekday d ∉ p.weekly_work_days ∨ p.is_holiday d = true then
        { ctx with current_date := some (d + 1) }
      else
        { ctx with provisional_result :=
                     some { status := .success
                            message := some "Process completed."
                            attributes := some { start_date := d, end_date := d } }
                   state := .successful }
  | .error =>
    { ctx with
        result := some (ctx.provisional_result.getD
          (failureResult "Iteration failed unexpectedly. Someone should fix this.")) }
  | .successful =>
    { ctx with
        result := some (ctx.provisional_result.getD
          (failureResult
            "Iteration succeeded without a result. This should NEVER HAPPEN. Someone should fix this.")) }

/-- `Iteration.run` loops `process` while no result is set; `run o project n`
is the context after `n` loop steps (steps after a result or a crash are
identity, so a run that terminates is eventually constant). -/
def Iteration.run (o : Oracle) (project : Option Project) : ℕ → IterationContext
  | 0 => initContext project
  | n + 1 => IterationContext.process o (Iteration.run o project n)

/-- `monte_carlo.py` `MonteCarloOutcome`. -/
structure MonteCarloOutcome where
  total : ℕ
  probability : ℚ
deriving DecidableEq

/-- The `end_date` attributes of the successful results, in list order:
the keys inserted into the bucket dictionary of
`MonteCarlo._process_results`. -/
def success_end_dates (results : List IterationResult) : List Date :=
  results.filterMap (fun r =>
    match r.status, r.attributes with
    | .success, some a => some a.end_date
    | _, _ => none)

/-- The second loop of `MonteCarlo._process_results`: walk the distinct end
dates in ascending order, keeping a running cumulative count, and emit
`MonteCarloOutcome(total=count, probability=cumulative/iterations)`. -/
def monte_carlo_outcomes (dates : List Date) (iterations : ℕ) :
    List Date → ℕ → List (Date × MonteCarloOutcome)
  | [], _ => []
  | d :: rest, cum =>
    (d, { total := dates.count d,
          probability := ((cum + dates.count d : ℕ) : ℚ) / (iterations : ℚ) })
      :: monte_carlo_outcomes dates iterations rest (cum + dates.count d)

/-- `MonteCarlo._process_results`.  A success result whose attribute map is
absent makes the Python code raise (`None.get`), modelled by `none`;
otherwise the successful end dates are bucketed and the sorted cumulative
outcome list is returned (the Python output dict is built in ascending key
order, hence an ordered association list). -/
def process_results (results : List IterationResult) (iterations : ℕ) :
    Option (List (Date × MonteCarloOutcome)) :=
  if ∀ r ∈ results, r.status = .success → r.attributes.isSome then
    let dates := success_end_dates results
    some (monte_carlo_outcomes dates iterations (List.insertionSort (· ≤ ·) dates.dedup) 0)
  else
    none

/-- The errors `MonteCarlo.run` can raise: the preflight `RuntimeError`,
and the `NameError` for the undefined name `i` in the per-iteration
observer notification. -/
inductive PyError
  | runtimeError (msg : String)
  | nameError (name : String)
deriving DecidableEq

/-- The preflight error message of `MonteCarlo.run`. -/
def preflight_message : String :=
  "The max person days per week must be greater than 0 or the simulation will never end. This is definately not what you want!"

/-- `MonteCarlo.run`: raises the preflight `RuntimeError` when
`max_person_days_per_week <= 0`; otherwise, if at least one iteration is
requested, the per-result notification evaluates the undefined name `i`
and a `NameError` propagates out of `run`; with zero iterations the result
list is empty and `_process_results([])` is returned. -/
def MonteCarlo.run (project : Project) (iterations : ℕ) :
    Except PyError (List (Date × MonteCarloOutcome)) :=
  if project.max_person_days_per_week ≤ 0 then
    .error (.runtimeError preflight_message)
  else if 0 < iterations then
    .error (.nameError "i")
  else
    .ok ((process_results [] iterations).getD [])

/-! ## Concrete instances used by witnesses and counterexamples -/

/-- 2020 United States federal holidays as produced by the `holidays`
package for `country_code="US"`, in the date encoding of this file
(2020-01-01 = 2): New Years Day, Martin Luther King Jr. Day (Jan 20),
Washingtons Birthday (Feb 17), Memorial Day (May 25), Independence Day
(Jul 4, observed Jul 3), Labor Day (Sep 7), Columbus Day (Oct 12),
Veterans Day (Nov 11), Thanksgiving (Nov 26), Christmas Day (Dec 25). -/
def usHolidays2020 : Date → Bool := fun d =>
  d ∈ ([2, 21, 49, 147, 186, 187, 252, 287, 317, 332, 361] : List Int)

/-- The date 2020-01-01 (a Wednesday) in the encoding of this file. -/
def date20200101 : Date := 2

/-- The date 2020-01-21 (a Tuesday) in the encoding of this file. -/
def date20200121 : Date := 22

/-- An oracle whose draws are all zero (no developer is on vacation, every
normal draw equals the task mean). -/
def zeroOracle : Oracle :=
  { normal := fun _ => 0, vacation := fun _ _ => 0 }

/-- The deterministic scenario of the spec: project starting 2020-01-01,
one developer, no vacation weeks, US holidays, default work days and
hours, one task estimated 12/12/12. -/
def project2020 : Project :=
  { start_date := date20200101
    developer_count := 1
    weeks_off_per_year := 0
    weekly_work_days := [0, 1, 2, 3, 4]
    work_hours_per_day := 8
    communication_penalty := 1/2
    tasks := [{ optimistic := 12, pessimistic := 12, likely := 12 }]
    task_groups := []
    is_holiday := usHolidays2020 }

/-- Holiday lookup with `country_code = None`: never a holiday. -/
def noHolidays : Date → Bool := fun _ => false

/-- A valid project with one task, a positive vacation allowance and
positive weekly capacity, started on a Monday. -/
def vacationProject : Project :=
  { start_date := 0
    developer_count := 1
    weeks_off_per_year := 1
    weekly_work_days := [0, 1, 2, 3, 4]
    work_hours_per_day := 8
    communication_penalty := 1/2
    tasks := [{ optimistic := 0, pessimistic := 0, likely := 0 }]
    task_groups := []
    is_holiday := noHolidays }

/-- An oracle whose vacation draws are all 1/2: every developer is on
vacation every sampled week. -/
def allVacationOracle : Oracle :=
  { normal := fun _ => 0, vacation := fun _ _ => 1/2 }

/-- A project with no ungrouped task and one task group that contains no
tasks. -/
def emptyGroupProject : Project :=
  { start_date := 0
    developer_count := 1
    weeks_off_per_year := 0
    weekly_work_days := [0, 1, 2, 3, 4]
    work_hours_per_day := 8
    communication_penalty := 1/2
    tasks := []
    task_groups := [{ name := "group", tasks := [] }]
    is_holiday := noHolidays }

/-- The preflight example of the spec: two developers, a single one-hour
work day per week and a communication penalty of 1 give exactly zero
person days of weekly capacity. -/
def preflightProject : Project :=
  { start_date := 0
    developer_count := 2
    weeks_off_per_year := 2
    weekly_work_days := [0]
    work_hours_per_day := 1
    communication_penalty := 1
    tasks := [{ optimistic := 5, pessimistic := 16, likely := 12 }]
    task_groups := []
    is_holiday := noHolidays }

/-- A valid project with one task, no vacation allowance and no holiday
calendar. -/
def demoProject : Project :=
  { start_date := 0
    developer_count := 1
    weeks_off_per_year := 0
    weekly_work_days := [0, 1, 2, 3, 4]
    work_hours_per_day := 8
    communication_penalty := 1/2
    tasks := [{ optimistic := 1, pessimistic := 3, likely := 2 }]
    task_groups := []
    is_holiday := noHolidays }

/-- The task of the spec example: optimistic 3, likely 5, pessimistic 10. -/
def taskC9 : Task := { optimistic := 3, pessimistic := 10, likely := 5 }

/-- A successful iteration result ending on day 5. -/
def successOn5 : IterationResult :=
  { status := .success, message := some "Process completed.",
    attributes := some { start_date := 5, end_date := 5 } }

/-- A successful iteration result ending on day 3. -/
def successOn3 : IterationResult :=
  { status := .success, message := some "Process completed.",
    attributes := some { start_date := 3, end_date := 3 } }

/-! ## General lemmas about the machine -/

theorem process_frozen (o : Oracle) (ctx : IterationContext)
    (h : ctx.result.isSome = true ∨ ctx.crashed = true) :
    ctx.process o = ctx := by
  unfold IterationContext.process
  rcases h with h | h <;> simp [h]

theorem run_frozen (o : Oracle) (p : Option Project) (n : ℕ)
    (h : (Iteration.run o p n).result.isSome = true ∨ (Iteration.run o p n).crashed = true) :
    ∀ k, Iteration.run o p (n + k) = Iteration.run o p n := by
  intro k
  induction k with
  | zero => rfl
  | succ k ih =>
    have : Iteration.run o p (n + (k + 1)) = (Iteration.run o p (n + k)).process o := rfl
    rw [this, ih, process_frozen o _ h]

/-- How one processing step can change the provisional and final result:
the project is never modified; the provisional result is either untouched,
a failure, or the success record Finalizing builds from a cursor date that
is a configured working day and not a holiday; the final result is either
untouched or set from the provisional result with a failure fallback. -/
theorem process_cases (o : Oracle) (ctx : IterationContext) :
    (ctx.process o).project = ctx.project ∧
    ((ctx.process o).provisional_result = ctx.provisional_result ∨
      (∃ msg, (ctx.process o).provisional_result = some (failureResult msg)) ∨
      (∃ p d, ctx.project = some p ∧ weekday d ∈ p.weekly_work_days ∧
        p.is_holiday d = false ∧
        (ctx.process o).provisional_result =
          some { status := .success, message := some "Process completed.",
                 attributes := some { start_date := d, end_date := d } })) ∧
    ((ctx.process o).result = ctx.result ∨
      ∃ msg, (ctx.process o).result = some (ctx.provisional_result.getD (failureResult msg))) := by
  unfold IterationContext.process
  by_cases hfreeze : (ctx.result.isSome || ctx.crashed) = true
  · rw [if_pos hfreeze]
    exact ⟨rfl, Or.inl rfl, Or.inl rfl⟩
  rw [if_neg hfreeze]
  cases hstate : ctx.state with
  | uninitialized =>
    dsimp only
    cases hproj : ctx.project with
    | none => exact ⟨rfl, Or.inr (Or.inl ⟨_, rfl⟩), Or.inl rfl⟩
    | some p =>
      dsimp only
      split_ifs
      · exact ⟨rfl, Or.inr (Or.inl ⟨_, rfl⟩), Or.inl rfl⟩
      · exact ⟨rfl, Or.inl rfl, Or.inl rfl⟩
  | calculatingWeeks =>
    dsimp only
    cases hproj : ctx.project with
    | none => exact ⟨rfl, Or.inr (Or.inl ⟨_, rfl⟩), Or.inl rfl⟩
    | some p =>
      dsimp only
      cases hrem : ctx.person_days_remaining with
      | none => exact ⟨rfl, Or.inl rfl, Or.inl rfl⟩
      | some r =>
        dsimp only
        split_ifs <;> exact ⟨rfl, Or.inl rfl, Or.inl rfl⟩
  | calculatingDays =>
    dsimp only
    cases hproj : ctx.project with
    | none => exact ⟨rfl, Or.inr (Or.inl ⟨_, rfl⟩), Or.inl rfl⟩
    | some p =>
      cases hdate : ctx.current_date with
      | none => exact ⟨rfl, Or.inr (Or.inl ⟨_, rfl⟩), Or.inl rfl⟩
      | some d =>
        dsimp only
        split_ifs <;> exact ⟨rfl, Or.inl rfl, Or.inl rfl⟩
  | finalizing =>
    dsimp only
    cases hproj : ctx.project with
    | none => exact ⟨rfl, Or.inr (Or.inl ⟨_, rfl⟩), Or.inl rfl⟩
    | some p =>
      cases hdate : ctx.current_date with
      | none => exact ⟨rfl, Or.inr (Or.inl ⟨_, rfl⟩), Or.inl rfl⟩
      | some d =>
        dsimp only
        split_ifs with hcond
        · exact ⟨rfl, Or.inl rfl, Or.inl rfl⟩
        · push_neg at hcond
          refine ⟨rfl, Or.inr (Or.inr ⟨p, d, rfl, hcond.1, ?_, rfl⟩), Or.inl rfl⟩
          exact Bool.not_eq_true _ ▸ hcond.2
  | error =>
    exact ⟨rfl, Or.inl rfl, Or.inr ⟨_, rfl⟩⟩
  | successful =>
    exact ⟨rfl, Or.inl rfl, Or.inr ⟨_, rfl⟩⟩

/-- The success-result invariant for C4: the project reference is fixed and
every provisional or final success result records equal start and end dates
falling on a configured working, non-holiday day. -/
def ResultInv (p : Project) (ctx : IterationContext) : Prop :=
  ctx.project = some p ∧
  (∀ r, ctx.provisional_result = some r → r.status = .success →
    ∃ d : Date, r.attributes = some { start_date := d, end_date := d } ∧
      weekday d ∈ p.weekly_work_days ∧ p.is_holiday d = false) ∧
  (∀ r, ctx.result = some r → r.status = .success →
    ∃ d : Date, r.attributes = some { start_date := d, end_date := d } ∧
      weekday d ∈ p.weekly_work_days ∧ p.is_holiday d = false)

theorem resultInv_process (o : Oracle) (p : Project) (ctx : IterationContext)
    (h : ResultInv p ctx) : ResultInv p (ctx.process o) := by
  obtain ⟨hp, hprov, hres⟩ := h
  obtain ⟨h1, h2, h3⟩ := process_cases o ctx
  refine ⟨h1.trans hp, ?_, ?_⟩
  · rcases h2 with h2 | ⟨msg, h2⟩ | ⟨p', d, hp', hw, hh, h2⟩
    · rw [h2]; exact hprov
    · intro r hr hs
      rw [h2] at hr
      obtain rfl : failureResult msg = r := Option.some_injective _ hr
      simp [failureResult] at hs
    · intro r hr hs
      rw [h2] at hr
      obtain rfl := Option.some_injective _ hr
      obtain rfl : p' = p := Option.some_injective _ (hp'.symm.trans hp)
      exact ⟨d, rfl, hw, hh⟩
  · rcases h3 with h3 | ⟨msg, h3⟩
    · intro r hr hs
      rw [h3] at hr
      exact hres r hr hs
    · intro r hr hs
      rw [h3] at hr
      obtain rfl := Option.some_injective _ hr
      cases hpv : ctx.provisional_result with
      | none => rw [hpv] at hs; simp [failureResult] at hs
      | some pr =>
        rw [hpv] at hs
        simp only [Option.getD_some] at hs ⊢
        exact hprov pr hpv hs

theorem run_resultInv (o : Oracle) (p : Project) (n : ℕ) :
    ResultInv p (Iteration.run o (some p) n) := by
  induction n with
  | zero =>
    refine ⟨rfl, ?_, ?_⟩ <;> intro r hr <;> simp [Iteration.run, initContext] at hr
  | succ n ih => exact resultInv_process o p _ ih

/-- Counts of mutually exclusive predicates add. -/
theorem countP_or_of_disjoint {α : Type} (l : List α) (f g : α → Bool)
    (h : ∀ x ∈ l, ¬(f x = true ∧ g x = true)) :
    l.countP (fun x => f x || g x) = l.countP f + l.countP g := by
  induction l with
  | nil => simp
  | cons a l ih =>
    have ha := h a (List.mem_cons_self a l)
    rw [List.countP_cons, List.countP_cons, List.countP_cons,
      ih (fun x hx => h x (List.mem_cons_of_mem a hx))]
    cases hfv : f a with
    | false =>
      cases hgv : g a with
      | false => simp [hfv, hgv]
      | true => simp [hfv, hgv] <;> omega
    | true =>
      cases hgv : g a with
      | false => simp [hfv, hgv] <;> omega
      | true => exact absurd ⟨hfv, hgv⟩ ha

/-- A predicate and its negation split the length. -/
theorem countP_not_add {α : Type} (l : List α) (f : α → Bool) :
    l.countP f + l.countP (fun x => !f x) = l.length := by
  induction l with
  | nil => simp
  | cons a l ih =>
    rw [List.countP_cons, List.countP_cons]
    cases hfv : f a <;> simp [hfv] <;> omega

/-- When every result is a success with attributes, every result
contributes exactly one bucketed end date. -/
theorem success_end_dates_length (results : List IterationResult)
    (h : ∀ r ∈ results, r.status = .success ∧ r.attributes.isSome = true) :
    (success_end_dates results).length = results.length := by
  induction results with
  | nil => rfl
  | cons r l ih =>
    obtain ⟨hs, ha⟩ := h r (List.mem_cons_self r l)
    obtain ⟨a, hae⟩ := Option.isSome_iff_exists.mp ha
    have ihl := ih (fun x hx => h x (List.mem_cons_of_mem r hx))
    simp only [success_end_dates, List.filterMap_cons, hs, hae] at ihl ⊢
    simp [ihl]

/-- The emitted outcome list walks exactly the given keys. -/
theorem monte_carlo_outcomes_fst (dates : List Date) (iterations : ℕ) :
    ∀ (ks : List Date) (cum : ℕ),
      (monte_carlo_outcomes dates iterations ks cum).map Prod.fst = ks := by
  intro ks
  induction ks with
  | nil => intro cum; rfl
  | cons d rest ih => intro cum; simp [monte_carlo_outcomes, ih]

/-- The emitted totals are the per-key multiplicities. -/
theorem monte_carlo_outcomes_totals (dates : List Date) (iterations : ℕ) :
    ∀ (ks : List Date) (cum : ℕ),
      (monte_carlo_outcomes dates iterations ks cum).map (fun x => x.2.total) =
        ks.map (fun d => dates.count d) := by
  intro ks
  induction ks with
  | nil => intro cum; rfl
  | cons d rest ih => intro cum; simp [monte_carlo_outcomes, ih]

/-- Summing the multiplicities of a duplicate-free cover recovers the
length. -/
theorem sum_count_of_cover :
    ∀ (ks dates : List Date), ks.Nodup → (∀ x ∈ dates, x ∈ ks) →
      (ks.map (fun d => dates.count d)).sum = dates.length := by
  intro ks
  induction ks with
  | nil =>
    intro dates _ hcov
    have hnil : dates = [] :=
      List.eq_nil_iff_forall_not_mem.mpr (fun x hx => by simpa using hcov x hx)
    simp [hnil]
  | cons k rest ih =>
    intro dates hnd hcov
    have hk : k ∉ rest := (List.nodup_cons.mp hnd).1
    have hnd2 : rest.Nodup := (List.nodup_cons.mp hnd).2
    rw [List.map_cons, List.sum_cons]
    have hlen : dates.count k + (dates.filter (fun x => !(x == k))).length = dates.length := by
      rw [List.count_eq_countP, ← List.countP_eq_length_filter]
      exact countP_not_add dates (fun x => x == k)
    have hcnt : ∀ d ∈ rest, dates.count d = (dates.filter (fun x => !(x == k))).count d := by
      intro d hd
      have hne : d ≠ k := fun hdk => hk (hdk ▸ hd)
      exact (List.count_filter (by simp [hne])).symm
    have hcov2 : ∀ x ∈ dates.filter (fun x => !(x == k)), x ∈ rest := by
      intro x hx
      have hxd := List.mem_of_mem_filter hx
      have hxk : x ≠ k := by simpa using List.of_mem_filter hx
      rcases List.mem_cons.mp (hcov x hxd) with rfl | hx2
      · exact absurd rfl hxk
      · exact hx2
    rw [List.map_congr_left hcnt, ih _ hnd2 hcov2, hlen]

/-- The running cumulative count along the sorted distinct keys equals, at
each key, the number of bucketed dates up to and including that key. -/
theorem monte_carlo_outcomes_spec (dates : List Date) (iterations : ℕ) :
    ∀ (ks done : List Date),
      (done ++ ks).Sorted (· < ·) →
      (∀ x ∈ dates, x ∈ done ++ ks) →
      ∀ x ∈ monte_carlo_outcomes dates iterations ks (dates.countP (fun y => y ∈ done)),
        x.2.total = dates.count x.1 ∧
        x.2.probability = ((dates.countP (fun y => y ≤ x.1) : ℕ) : ℚ) / (iterations : ℚ) := by
  intro ks
  induction ks with
  | nil =>
    intro done _ _ x hx
    simp [monte_carlo_outcomes] at hx
  | cons d rest ih =>
    intro done hsort hcov x hx
    have hdone_lt : ∀ y ∈ done, y < d := by
      intro y hy
      exact (List.pairwise_append.mp hsort).2.2 y hy d (List.mem_cons_self d rest)
    have hrest_gt : ∀ y ∈ rest, d < y :=
      (List.pairwise_cons.mp (List.pairwise_append.mp hsort).2.1).1
    have hdisj : ∀ y ∈ dates, ¬((decide (y ∈ done)) = true ∧ (y == d) = true) := by
      intro y _ ⟨h1, h2⟩
      have : y = d := by simpa using h2
      exact absurd (hdone_lt y (by simpa using h1)) (by simp [this])
    have hkey : dates.countP (fun y => y ∈ done) + dates.count d
        = dates.countP (fun y => y ≤ d) := by
      rw [List.count_eq_countP, ← countP_or_of_disjoint dates _ _ hdisj]
      refine List.countP_congr (fun y hy => ?_)
      simp only [Bool.or_eq_true, decide_eq_true_eq, beq_iff_eq]
      constructor
      · rintro (h1 | rfl)
        · exact le_of_lt (hdone_lt y h1)
        · exact le_refl y
      · intro hle
        rcases List.mem_append.mp (hcov y hy) with h1 | h2
        · exact Or.inl h1
        · rcases List.mem_cons.mp h2 with rfl | h3
          · exact Or.inr rfl
          · exact absurd hle (not_le.mpr (hrest_gt y h3))
    have hacc : dates.countP (fun y => y ∈ done) + dates.count d
        = dates.countP (fun y => y ∈ done ++ [d]) := by
      rw [List.count_eq_countP, ← countP_or_of_disjoint dates _ _ hdisj]
      refine List.countP_congr (fun y hy => ?_)
      simp [List.mem_append]
    simp only [monte_carlo_outcomes] at hx
    rcases List.mem_cons.mp hx with rfl | hx2
    · refine ⟨rfl, ?_⟩
      show ((dates.countP (fun y => y ∈ done) + dates.count d : ℕ) : ℚ) / (iterations : ℚ) = _
      rw [hkey]
    · have hsort2 : ((done ++ [d]) ++ rest).Sorted (· < ·) := by
        rw [List.append_assoc]; exact hsort
      have hcov2 : ∀ y ∈ dates, y ∈ (done ++ [d]) ++ rest := by
        intro y hy; rw [List.append_assoc]; exact hcov y hy
      have := ih (done ++ [d]) hsort2 hcov2 x (by rw [← hacc]; exact hx2)
      exact this

/-! ## Termination machinery for the amended C1 -/

/-- The hypotheses under which the amended C1 termination theorem is
proved: positive weekly capacity, no vacation allowance (so the sampler
never removes capacity), a holiday lookup that never fires (as with
`country_code = None`), and a well-formed nonempty work-day set, as the
`Project` validators guarantee. -/
def CalmProject (p : Project) : Prop :=
  0 < p.max_person_days_per_week ∧
  p.weeks_off_per_year = 0 ∧
  (∀ d, p.is_holiday d = false) ∧
  p.weekly_work_days ≠ [] ∧
  (∀ x ∈ p.weekly_work_days, 0 ≤ x ∧ x < 7)

theorem calm_vacation (p : Project) (hw : p.weeks_off_per_year = 0) (draw : ℕ → ℚ) :
    probabilistic_weekly_person_days_lost_to_vacations (some p) draw = 0 := by
  simp [probabilistic_weekly_person_days_lost_to_vacations, hw]

theorem calm_holidays (p : Project) (hh : ∀ d, p.is_holiday d = false) (cd : Option Date) :
    p.person_days_lost_to_holidays_this_week cd = 0 := by
  cases cd <;> simp [Project.person_days_lost_to_holidays_this_week, hh]

/-- A context about to execute a CalculatingWeeks step. -/
def WeeksCtx (p : Project) (ctx : IterationContext) : Prop :=
  ctx.project = some p ∧ ctx.state = .calculatingWeeks ∧ ctx.result = none ∧
  ctx.crashed = false ∧ ctx.working_days_left = none

/-- A context entering CalculatingDays for the first time, its
remainder-week capacity still untouched. -/
def DaysEntryCtx (p : Project) (ctx : IterationContext) : Prop :=
  ctx.project = some p ∧ ctx.state = .calculatingDays ∧ ctx.result = none ∧
  ctx.crashed = false ∧ ctx.working_days_left = none ∧
  ctx.remainder_days = p.max_person_days_per_week ∧
  ctx.person_days_remaining.isSome = true ∧ ctx.current_date.isSome = true

/-- A context walking days with the working-days budget already set. -/
def DaysCtx (p : Project) (ctx : IterationContext) : Prop :=
  ctx.project = some p ∧ ctx.state = .calculatingDays ∧ ctx.result = none ∧
  ctx.crashed = false ∧ ctx.current_date.isSome = true

/-- A context in the Finalizing state. -/
def FinCtx (p : Project) (ctx : IterationContext) : Prop :=
  ctx.project = some p ∧ ctx.state = .finalizing ∧ ctx.result = none ∧
  ctx.crashed = false ∧ ctx.current_date.isSome = true

theorem process_weeks (o : Oracle) (p : Project) (ctx : IterationContext)
    (r : ℚ) (d : Date) (hC : CalmProject p) (h : WeeksCtx p ctx)
    (hrem : ctx.person_days_remaining = some r) (hd : ctx.current_date = some d) :
    ctx.process o =
      if r ≤ p.max_person_days_per_week then
        { ctx with vacation_calls := ctx.vacation_calls + 1,
                   remainder_days := p.max_person_days_per_week,
                   state := .calculatingDays }
      else
        { ctx with vacation_calls := ctx.vacation_calls + 1,
                   current_date := some (d + 7),
                   person_days_remaining := some (r - p.max_person_days_per_week) } := by
  obtain ⟨hproj, hstate, hres, hcr, hwdl⟩ := h
  unfold IterationContext.process
  rw [if_neg (by simp [hres, hcr])]
  simp only [hstate, hproj, hrem, hd, calm_vacation p hC.2.1, calm_holidays p hC.2.2.1,
    Nat.cast_zero, sub_zero, if_neg (not_lt.mpr (le_of_lt hC.1)), Option.map_some]
  rfl

theorem run_eq_iterate (o : Oracle) (p : Option Project) (n : ℕ) :
    Iteration.run o p n = (IterationContext.process o)^[n] (initContext p) := by
  induction n with
  | zero => rfl
  | succ n ih =>
    show (Iteration.run o p n).process o = _
    rw [ih, Function.iterate_succ_apply']

/-- Under a calm project, consuming whole weeks terminates: within `k + 1`
steps the machine transfers to CalculatingDays with the full weekly
capacity recorded as the remainder. -/
theorem weeks_phase (o : Oracle) (p : Project) (hC : CalmProject p) :
    ∀ (k : ℕ) (ctx : IterationContext) (r : ℚ) (d : Date),
      WeeksCtx p ctx → ctx.person_days_remaining = some r → ctx.current_date = some d →
      r ≤ ((k + 1 : ℕ) : ℚ) * p.max_person_days_per_week →
      ∃ m ≤ k + 1, DaysEntryCtx p ((IterationContext.process o)^[m] ctx) := by
  intro k
  induction k with
  | zero =>
    intro ctx r d h hrem hd hb
    refine ⟨1, le_refl 1, ?_⟩
    have hle : r ≤ p.max_person_days_per_week := by push_cast at hb; linarith
    rw [Function.iterate_one, process_weeks o p ctx r d hC h hrem hd, if_pos hle]
    obtain ⟨hproj, hstate, hres, hcr, hwdl⟩ := h
    exact ⟨hproj, rfl, hres, hcr, hwdl, rfl, by simp [hrem], by simp [hd]⟩
  | succ k ih =>
    intro ctx r d h hrem hd hb
    by_cases hle : r ≤ p.max_person_days_per_week
    · refine ⟨1, by omega, ?_⟩
      rw [Function.iterate_one, process_weeks o p ctx r d hC h hrem hd, if_pos hle]
      obtain ⟨hproj, hstate, hres, hcr, hwdl⟩ := h
      exact ⟨hproj, rfl, hres, hcr, hwdl, rfl, by simp [hrem], by simp [hd]⟩
    · have hstep := process_weeks o p ctx r d hC h hrem hd
      rw [if_neg hle] at hstep
      obtain ⟨hproj, hstate, hres, hcr, hwdl⟩ := h
      have h2 : WeeksCtx p (ctx.process o) := by
        rw [hstep]; exact ⟨hproj, hstate, hres, hcr, hwdl⟩
      have hrem2 : (ctx.process o).person_days_remaining =
          some (r - p.max_person_days_per_week) := by rw [hstep]
      have hd2 : (ctx.process o).current_date = some (d + 7) := by rw [hstep]
      have hb2 : r - p.max_person_days_per_week ≤ ((k + 1 : ℕ) : ℚ) * p.max_person_days_per_week := by
        push_cast at hb ⊢; linarith
      obtain ⟨m, hm, hres2⟩ := ih (ctx.process o) (r - p.max_person_days_per_week) (d + 7)
        h2 hrem2 hd2 hb2
      refine ⟨m + 1, by omega, ?_⟩
      rw [Function.iterate_succ_apply]
      exact hres2

/-- The first CalculatingDays step of a calm project does not crash (the
remainder is the positive weekly capacity) and leaves the machine either
in Finalizing or walking days with the budget set. -/
theorem process_days_entry (o : Oracle) (p : Project) (ctx : IterationContext)
    (hC : CalmProject p) (h : DaysEntryCtx p ctx) :
    FinCtx p (ctx.process o) ∨
      (DaysCtx p (ctx.process o) ∧ ∃ w, (ctx.process o).working_days_left = some w) := by
  obtain ⟨hproj, hstate, hres, hcr, hwdl, hrd, hremS, hdS⟩ := h
  obtain ⟨r, hrem⟩ := Option.isSome_iff_exists.mp hremS
  obtain ⟨d, hd⟩ := Option.isSome_iff_exists.mp hdS
  have hc0 : p.max_person_days_per_week ≠ 0 := ne_of_gt hC.1
  unfold IterationContext.process
  rw [if_neg (by simp [hres, hcr])]
  simp only [hstate, hproj, hd, hrem, hwdl, hrd]
  rw [if_neg (by simp [hc0])]
  split_ifs with hday hlast
  · exact Or.inr ⟨⟨rfl, rfl, hres, hcr, rfl⟩, ⟨_, rfl⟩⟩
  · exact Or.inl ⟨rfl, rfl, hres, hcr, rfl⟩
  · exact Or.inr ⟨⟨rfl, rfl, hres, hcr, rfl⟩, ⟨_, rfl⟩⟩

/-- One CalculatingDays step with the budget set, for a calm project: a
non-work weekday is skipped, a work weekday consumes one budgeted day and
moves to Finalizing when the budget is exhausted. -/
theorem process_days_step (o : Oracle) (p : Project) (ctx : IterationContext)
    (w : ℚ) (d : Date) (hC : CalmProject p) (h : DaysCtx p ctx)
    (hw : ctx.working_days_left = some w) (hd : ctx.current_date = some d) :
    (weekday d ∉ p.weekly_work_days →
      ctx.process o = { ctx with person_days_remaining := some (ctx.person_days_remaining.getD 0),
                                 working_days_left := some w,
                                 current_date := some (d + 1) }) ∧
    (weekday d ∈ p.weekly_work_days →
      ctx.process o = { ctx with person_days_remaining := some (ctx.person_days_remaining.getD 0),
                                 working_days_left := some (w - 1),
                                 current_date := some (d + 1),
                                 state := if w - 1 ≤ 0 then .finalizing
                                          else .calculatingDays }) := by
  obtain ⟨hproj, hstate, hres, hcr, _⟩ := h
  unfold IterationContext.process
  rw [if_neg (by simp [hres, hcr])]
  simp only [hstate, hproj, hd, hw]
  rw [if_neg (by simp)]
  constructor
  · intro hday
    rw [if_pos (Or.inl hday)]
  · intro hday
    rw [if_neg ?cond]
    case cond =>
      rintro (hno | hyes)
      · exact hno hday
      · rw [hC.2.2.1 d] at hyes; cases hyes

/-- Within any span of days containing a configured work weekday, a
CalculatingDays walk either reaches Finalizing or burns exactly one
budgeted day. -/
theorem days_progress (o : Oracle) (p : Project) (hC : CalmProject p) :
    ∀ (f : ℕ) (ctx : IterationContext) (w : ℚ) (d : Date),
      DaysCtx p ctx → ctx.working_days_left = some w → ctx.current_date = some d →
      (∃ i : ℕ, i < f ∧ weekday (d + (i : ℤ)) ∈ p.weekly_work_days) →
      ∃ m ≤ f, FinCtx p ((IterationContext.process o)^[m] ctx) ∨
        (DaysCtx p ((IterationContext.process o)^[m] ctx) ∧
          ((IterationContext.process o)^[m] ctx).working_days_left = some (w - 1) ∧
          0 < w - 1) := by
  intro f
  induction f with
  | zero =>
    rintro ctx w d h hw hd ⟨i, hi, _⟩
    exact absurd hi (Nat.not_lt_zero i)
  | succ f ih =>
    rintro ctx w d h hw hd ⟨i, hi, hwork⟩
    obtain ⟨hproj, hstate, hres, hcr, hdS⟩ := h
    by_cases hday : weekday d ∈ p.weekly_work_days
    · have hstep := (process_days_step o p ctx w d hC ⟨hproj, hstate, hres, hcr, hdS⟩ hw hd).2 hday
      by_cases hw0 : w - 1 ≤ 0
      · refine ⟨1, by omega, Or.inl ?_⟩
        rw [Function.iterate_one, hstep]
        exact ⟨hproj, by rw [if_pos hw0], hres, hcr, rfl⟩
      · refine ⟨1, by omega, Or.inr ⟨⟨?_, ?_, ?_, ?_, ?_⟩, ?_, by linarith [not_le.mp hw0]⟩⟩ <;>
          simp only [Function.iterate_one, hstep] <;>
          first
          | exact hproj
          | exact hres
          | exact hcr
          | exact if_neg hw0
          | rfl
    · have hstep := (process_days_step o p ctx w d hC ⟨hproj, hstate, hres, hcr, hdS⟩ hw hd).1 hday
      have hi0 : i ≠ 0 := by
        rintro rfl
        simp only [Nat.cast_zero, add_zero] at hwork
        exact hday hwork
      have h2 : DaysCtx p (ctx.process o) := by
        rw [hstep]; exact ⟨hproj, hstate, hres, hcr, rfl⟩
      have hw2 : (ctx.process o).working_days_left = some w := by rw [hstep]
      have hd2 : (ctx.process o).current_date = some (d + 1) := by rw [hstep]
      have hex : ∃ j : ℕ, j < f ∧ weekday ((d + 1) + (j : ℤ)) ∈ p.weekly_work_days := by
        refine ⟨i - 1, by omega, ?_⟩
        have harith : (d + 1) + ((i - 1 : ℕ) : ℤ) = d + (i : ℤ) := by
          have : (1 : ℤ) ≤ (i : ℤ) := by exact_mod_cast Nat.one_le_iff_ne_zero.mpr hi0
          push_cast [Nat.cast_sub (Nat.one_le_iff_ne_zero.mpr hi0)]
          ring
        rw [harith]
        exact hwork
      obtain ⟨m, hm, hres2⟩ := ih (ctx.process o) w (d + 1) h2 hw2 hd2 hex
      refine ⟨m + 1, by omega, ?_⟩
      rw [Function.iterate_succ_apply]
      exact hres2

/-- Any seven consecutive days contain a configured work weekday. -/
theorem exists_working_offset (p : Project) (hne : p.weekly_work_days ≠ [])
    (hmem : ∀ x ∈ p.weekly_work_days, 0 ≤ x ∧ x < 7) (d : Date) :
    ∃ i : ℕ, i < 7 ∧ weekday (d + (i : ℤ)) ∈ p.weekly_work_days := by
  obtain ⟨e, he⟩ := List.exists_mem_of_ne_nil _ hne
  obtain ⟨he0, he7⟩ := hmem e he
  have h1 : 0 ≤ (e - d % 7) % 7 := Int.emod_nonneg _ (by norm_num)
  have h2 : (e - d % 7) % 7 < 7 := Int.emod_lt_of_pos _ (by norm_num)
  refine ⟨((e - d % 7) % 7).toNat, by omega, ?_⟩
  have heq : weekday (d + (((e - d % 7) % 7).toNat : ℤ)) = e := by
    unfold weekday
    rw [Int.toNat_of_nonneg h1]
    omega
  rw [heq]
  exact he

/-- A CalculatingDays walk with a budget of at most `b + 1` days reaches
Finalizing within `7 * (b + 1)` steps. -/
theorem days_terminate (o : Oracle) (p : Project) (hC : CalmProject p) :
    ∀ (b : ℕ) (ctx : IterationContext) (w : ℚ),
      DaysCtx p ctx → ctx.working_days_left = some w → w ≤ ((b + 1 : ℕ) : ℚ) →
      ∃ m ≤ 7 * (b + 1), FinCtx p ((IterationContext.process o)^[m] ctx) := by
  intro b
  induction b with
  | zero =>
    intro ctx w h hw hb
    obtain ⟨d, hd⟩ := Option.isSome_iff_exists.mp h.2.2.2.2
    obtain ⟨m, hm, hres⟩ := days_progress o p hC 7 ctx w d h hw hd
      (exists_working_offset p hC.2.2.2.1 hC.2.2.2.2 d)
    rcases hres with hfin | ⟨_, _, hpos⟩
    · exact ⟨m, by omega, hfin⟩
    · exfalso; push_cast at hb; linarith
  | succ b ih =>
    intro ctx w h hw hb
    obtain ⟨d, hd⟩ := Option.isSome_iff_exists.mp h.2.2.2.2
    obtain ⟨m, hm, hres⟩ := days_progress o p hC 7 ctx w d h hw hd
      (exists_working_offset p hC.2.2.2.1 hC.2.2.2.2 d)
    rcases hres with hfin | ⟨h2, hw2, _⟩
    · exact ⟨m, by omega, hfin⟩
    · have hb2 : w - 1 ≤ ((b + 1 : ℕ) : ℚ) := by push_cast at hb ⊢; linarith
      obtain ⟨m2, hm2, hfin⟩ := ih _ (w - 1) h2 hw2 hb2
      refine ⟨m2 + m, by omega, ?_⟩
      rw [Function.iterate_add_apply]
      exact hfin

/-- One Finalizing step: a non-working day is skipped, a working
non-holiday day produces the provisional success and moves to
Successful. -/
theorem process_fin_step (o : Oracle) (p : Project) (ctx : IterationContext)
    (d : Date) (hC : CalmProject p) (h : FinCtx p ctx) (hd : ctx.current_date = some d) :
    (weekday d ∉ p.weekly_work_days → ctx.process o = { ctx with current_date := some (d + 1) }) ∧
    (weekday d ∈ p.weekly_work_days →
      ctx.process o =
        { ctx with provisional_result :=
                     some { status := .success, message := some "Process completed.",
                            attributes := some { start_date := d, end_date := d } },
                   state := .successful }) := by
  obtain ⟨hproj, hstate, hres, hcr, _⟩ := h
  unfold IterationContext.process
  rw [if_neg (by simp [hres, hcr])]
  simp only [hstate, hproj, hd]
  constructor
  · intro hday
    rw [if_pos (Or.inl hday)]
  · intro hday
    rw [if_neg ?cond]
    case cond =>
      rintro (hno | hyes)
      · exact hno hday
      · rw [hC.2.2.1 d] at hyes; cases hyes

/-- A Successful step records a final result and does not crash. -/
theorem process_successful (o : Oracle) (ctx : IterationContext)
    (hstate : ctx.state = .successful) (hres : ctx.result = none)
    (hcr : ctx.crashed = false) :
    ((ctx.process o).result).isSome = true ∧ (ctx.process o).crashed = false := by
  unfold IterationContext.process
  rw [if_neg (by simp [hres, hcr])]
  simp only [hstate]
  exact ⟨rfl, hcr⟩

/-- A Finalizing context whose next days contain a work weekday reaches a
recorded result, without crashing, within `f + 1` further steps. -/
theorem fin_progress (o : Oracle) (p : Project) (hC : CalmProject p) :
    ∀ (f : ℕ) (ctx : IterationContext) (d : Date),
      FinCtx p ctx → ctx.current_date = some d →
      (∃ i : ℕ, i < f ∧ weekday (d + (i : ℤ)) ∈ p.weekly_work_days) →
      ∃ m ≤ f + 1, ((IterationContext.process o)^[m] ctx).result.isSome = true ∧
        ((IterationContext.process o)^[m] ctx).crashed = false := by
  intro f
  induction f with
  | zero =>
    rintro ctx d h hd ⟨i, hi, _⟩
    exact absurd hi (Nat.not_lt_zero i)
  | succ f ih =>
    rintro ctx d h hd ⟨i, hi, hwork⟩
    obtain ⟨hproj, hstate, hres, hcr, hdS⟩ := h
    by_cases hday : weekday d ∈ p.weekly_work_days
    · have hstep := (process_fin_step o p ctx d hC ⟨hproj, hstate, hres, hcr, hdS⟩ hd).2 hday
      refine ⟨2, by omega, ?_⟩
      show ((ctx.process o).process o).result.isSome = true ∧
        ((ctx.process o).process o).crashed = false
      exact process_successful o (ctx.process o) (by rw [hstep]) (by rw [hstep]; exact hres)
        (by rw [hstep]; exact hcr)
    · have hstep := (process_fin_step o p ctx d hC ⟨hproj, hstate, hres, hcr, hdS⟩ hd).1 hday
      have hi0 : i ≠ 0 := by
        rintro rfl
        simp only [Nat.cast_zero, add_zero] at hwork
        exact hday hwork
      have h2 : FinCtx p (ctx.process o) := by
        rw [hstep]; exact ⟨hproj, hstate, hres, hcr, rfl⟩
      have hd2 : (ctx.process o).current_date = some (d + 1) := by rw [hstep]
      have hex : ∃ j : ℕ, j < f ∧ weekday ((d + 1) + (j : ℤ)) ∈ p.weekly_work_days := by
        refine ⟨i - 1, by omega, ?_⟩
        have harith : (d + 1) + ((i - 1 : ℕ) : ℤ) = d + (i : ℤ) := by
          push_cast [Nat.cast_sub (Nat.one_le_iff_ne_zero.mpr hi0)]
          ring
        rw [harith]
        exact hwork
      obtain ⟨m, hm, hres2⟩ := ih (ctx.process o) (d + 1) h2 hd2 hex
      refine ⟨m + 1, by omega, ?_⟩
      rw [Function.iterate_succ_apply]
      exact hres2

/-- In the list sorted by `≤` every element is at most the last one. -/
theorem sorted_le_getLast :
    ∀ (l : List Date) (hl : l ≠ []), l.Sorted (· ≤ ·) → ∀ x ∈ l, x ≤ l.getLast hl := by
  intro l
  induction l with
  | nil => intro hl; exact absurd rfl hl
  | cons a t ih =>
    intro hl hs x hx
    cases t with
    | nil =>
      rcases List.mem_cons.mp hx with rfl | h
      · simp
      · cases h
    | cons b t2 =>
      rw [List.getLast_cons (List.cons_ne_nil b t2)]
      rcases List.mem_cons.mp hx with rfl | hx2
      · exact (List.pairwise_cons.mp hs).1 _ (List.getLast_mem (List.cons_ne_nil b t2))
      · exact ih (List.cons_ne_nil b t2) (List.pairwise_cons.mp hs).2 x hx2

/-- The outcome walk only reads the bucketed dates through their
multiplicities. -/
theorem monte_carlo_outcomes_congr (dates₁ dates₂ : List Date) (iterations : ℕ)
    (h : ∀ d, dates₁.count d = dates₂.count d) :
    ∀ (ks : List Date) (cum : ℕ),
      monte_carlo_outcomes dates₁ iterations ks cum =
        monte_carlo_outcomes dates₂ iterations ks cum := by
  intro ks
  induction ks with
  | nil => intro cum; rfl
  | cons d rest ih => intro cum; simp [monte_carlo_outcomes, h d, ih]

/-! ## Claims -/

/-- C1 counterexample: a valid project with one task and positive weekly
capacity, together with a draw sequence that keeps its single developer on
vacation, crashes: the all-vacation week has zero realized capacity, the
zero demand sample transfers to CalculatingDays with `remainder_days = 0`,
and the division `person_days_remaining / remainder_days` raises
ZeroDivisionError, so no terminal state is ever reached. -/
theorem c1_counterexample :
    vacationProject.tasks ≠ [] ∧
    0 < vacationProject.max_person_days_per_week ∧
    (Iteration.run allVacationOracle (some vacationProject) 3).crashed = true ∧
    (Iteration.run allVacationOracle (some vacationProject) 3).result = none ∧
    (Iteration.run allVacationOracle (some vacationProject) 1000).result = none := by
  have h3crash : (Iteration.run allVacationOracle (some vacationProject) 3).crashed = true := by
    norm_num [Iteration.run, initContext, IterationContext.process, vacationProject,
      probabilistic_estimated_project_person_days, normal_draws_sum, Task.average, Task.stddev,
      probabilistic_weekly_person_days_lost_to_vacations,
      Project.person_days_lost_to_holidays_this_week, Project.max_person_days_per_week,
      Project.work_week_hours, Project.work_days_per_week, Project.num_communication_channels,
      Project.working_days_this_week, noHolidays, allVacationOracle, List.range_succ, weekday,
      failureResult]
  have h3res : (Iteration.run allVacationOracle (some vacationProject) 3).result = none := by
    norm_num [Iteration.run, initContext, IterationContext.process, vacationProject,
      probabilistic_estimated_project_person_days, normal_draws_sum, Task.average, Task.stddev,
      probabilistic_weekly_person_days_lost_to_vacations,
      Project.person_days_lost_to_holidays_this_week, Project.max_person_days_per_week,
      Project.work_week_hours, Project.work_days_per_week, Project.num_communication_channels,
      Project.working_days_this_week, noHolidays, allVacationOracle, List.range_succ, weekday,
      failureResult]
  refine ⟨by simp [vacationProject], ?_, h3crash, h3res, ?_⟩
  · norm_num [vacationProject, Project.max_person_days_per_week, Project.work_week_hours,
      Project.work_days_per_week, Project.num_communication_channels]
  · rw [show (1000:ℕ) = 3 + 997 from rfl,
      run_frozen allVacationOracle (some vacationProject) 3 (Or.inr h3crash) 997]
    exact h3res

/-- C1 amended: when the weekly capacity is positive, the vacation
allowance is zero (so no capacity is ever lost to vacation draws) and the
holiday lookup never fires, an iteration on a project with at least one
task terminates: after finitely many steps a result is recorded and no
exception is raised, for every demand draw. -/
theorem c1_termination_no_vacations_no_holidays (p : Project) (o : Oracle)
    (htasks : p.tasks ≠ [])
    (hcap : 0 < p.max_person_days_per_week)
    (hvac : p.weeks_off_per_year = 0)
    (hhol : ∀ d, p.is_holiday d = false)
    (hwd : p.weekly_work_days ≠ [])
    (hwdmem : ∀ x ∈ p.weekly_work_days, 0 ≤ x ∧ x < 7) :
    ∃ n, (Iteration.run o (some p) n).result.isSome = true ∧
      (Iteration.run o (some p) n).crashed = false := by
  have hC : CalmProject p := ⟨hcap, hvac, hhol, hwd, hwdmem⟩
  have h1 : (IterationContext.process o)^[1] (initContext (some p)) =
      { initContext (some p) with
          current_date := some p.start_date,
          person_days_remaining :=
            some (probabilistic_estimated_project_person_days (some p) o.normal),
          state := .calculatingWeeks } := by
    rw [Function.iterate_one]
    unfold IterationContext.process
    rw [if_neg (by simp [initContext])]
    simp only [initContext]
    rw [if_neg (fun hcon => htasks hcon.1)]
  have hW : WeeksCtx p ((IterationContext.process o)^[1] (initContext (some p))) := by
    rw [h1]; exact ⟨rfl, rfl, rfl, rfl, rfl⟩
  have hbound : probabilistic_estimated_project_person_days (some p) o.normal ≤
      ((⌈probabilistic_estimated_project_person_days (some p) o.normal /
          p.max_person_days_per_week⌉₊ + 1 : ℕ) : ℚ) * p.max_person_days_per_week := by
    have h2 := Nat.le_ceil (probabilistic_estimated_project_person_days (some p) o.normal /
      p.max_person_days_per_week)
    have h3 := (div_mul_cancel₀ (probabilistic_estimated_project_person_days (some p) o.normal)
      (ne_of_gt hcap)).symm
    calc probabilistic_estimated_project_person_days (some p) o.normal
        = probabilistic_estimated_project_person_days (some p) o.normal /
            p.max_person_days_per_week * p.max_person_days_per_week := h3
      _ ≤ ((⌈probabilistic_estimated_project_person_days (some p) o.normal /
            p.max_person_days_per_week⌉₊ : ℕ) : ℚ) * p.max_person_days_per_week :=
          mul_le_mul_of_nonneg_right h2 (le_of_lt hcap)
      _ ≤ _ := by
          refine mul_le_mul_of_nonneg_right ?_ (le_of_lt hcap)
          push_cast
          linarith
  obtain ⟨m1, hm1, hDE⟩ := weeks_phase o p hC
    ⌈probabilistic_estimated_project_person_days (some p) o.normal /
      p.max_person_days_per_week⌉₊
    ((IterationContext.process o)^[1] (initContext (some p)))
    (probabilistic_estimated_project_person_days (some p) o.normal)
    p.start_date hW (by rw [h1]) (by rw [h1]) hbound
  rw [← Function.iterate_add_apply] at hDE
  rcases process_days_entry o p _ hC hDE with hFin | ⟨hD, w, hw⟩
  · have hFin2 : FinCtx p
        ((IterationContext.process o)^[1 + (m1 + 1)] (initContext (some p))) := by
      rw [Function.iterate_add_apply, Function.iterate_one]
      exact hFin
    obtain ⟨d2, hd2⟩ := Option.isSome_iff_exists.mp hFin2.2.2.2.2
    obtain ⟨m3, hm3, hdone⟩ := fin_progress o p hC 7 _ d2 hFin2 hd2
      (exists_working_offset p hwd hwdmem d2)
    refine ⟨m3 + (1 + (m1 + 1)), ?_, ?_⟩
    · rw [run_eq_iterate, Function.iterate_add_apply]; exact hdone.1
    · rw [run_eq_iterate, Function.iterate_add_apply]; exact hdone.2
  · have hD2 : DaysCtx p
        ((IterationContext.process o)^[1 + (m1 + 1)] (initContext (some p))) := by
      rw [Function.iterate_add_apply, Function.iterate_one]
      exact hD
    have hw2 : ((IterationContext.process o)^[1 + (m1 + 1)]
        (initContext (some p))).working_days_left = some w := by
      rw [Function.iterate_add_apply, Function.iterate_one]
      exact hw
    have hwb : w ≤ ((⌈w⌉₊ + 1 : ℕ) : ℚ) := by
      have := Nat.le_ceil w
      push_cast
      push_cast at this
      linarith
    obtain ⟨m2, hm2, hFin2⟩ := days_terminate o p hC ⌈w⌉₊ _ w hD2 hw2 hwb
    rw [← Function.iterate_add_apply] at hFin2
    obtain ⟨d3, hd3⟩ := Option.isSome_iff_exists.mp hFin2.2.2.2.2
    obtain ⟨m3, hm3, hdone⟩ := fin_progress o p hC 7 _ d3 hFin2 hd3
      (exists_working_offset p hwd hwdmem d3)
    refine ⟨m3 + (m2 + (1 + (m1 + 1))), ?_, ?_⟩
    · rw [run_eq_iterate, Function.iterate_add_apply]; exact hdone.1
    · rw [run_eq_iterate, Function.iterate_add_apply]; exact hdone.2

/-- Witness for the amended C1 at a concrete calm project. -/
theorem c1_termination_no_vacations_no_holidays_witness :
    ∃ n, (Iteration.run zeroOracle (some demoProject) n).result.isSome = true ∧
      (Iteration.run zeroOracle (some demoProject) n).crashed = false :=
  c1_termination_no_vacations_no_holidays demoProject zeroOracle
    (by simp [demoProject])
    (by norm_num [demoProject, Project.max_person_days_per_week, Project.work_week_hours,
      Project.work_days_per_week, Project.num_communication_channels])
    rfl (fun _ => rfl) (by simp [demoProject]) (by decide)

/-- C5: for the project starting 2020-01-01 with one developer, no vacation
weeks, the US holiday calendar, default work days and hours, and a single
task estimated 12/12/12 (so the demand draw is deterministically 12 person
days), the iteration completes with a success result whose start and end
dates are 2020-01-21, New Years Day and Martin Luther King Jr. Day having
been skipped as holidays; the result is final (further processing leaves
it unchanged). -/
theorem c5_deterministic_end_date :
    (Iteration.run zeroOracle (some project2020) 12).result =
      some { status := .success, message := some "Process completed.",
             attributes := some { start_date := date20200121, end_date := date20200121 } } ∧
    ∀ k, (Iteration.run zeroOracle (some project2020) (12 + k)).result =
      some { status := .success, message := some "Process completed.",
             attributes := some { start_date := date20200121, end_date := date20200121 } } := by
  have h12 :
      (Iteration.run zeroOracle (some project2020) 12).result =
        some { status := .success, message := some "Process completed.",
               attributes := some { start_date := date20200121, end_date := date20200121 } } := by
    norm_num [Iteration.run, initContext, IterationContext.process, project2020,
      probabilistic_estimated_project_person_days, normal_draws_sum, Task.average, Task.stddev,
      probabilistic_weekly_person_days_lost_to_vacations,
      Project.person_days_lost_to_holidays_this_week, Project.max_person_days_per_week,
      Project.work_week_hours, Project.work_days_per_week, Project.num_communication_channels,
      Project.working_days_this_week, usHolidays2020, zeroOracle, List.range_succ,
      date20200101, date20200121, weekday, failureResult]
  refine ⟨h12, fun k => ?_⟩
  rw [run_frozen zeroOracle (some project2020) 12 (Or.inl (by rw [h12]; rfl)) k, h12]

/-- C10: the weekly vacation sampler returns at most
`developer_count * work_days_per_week` person days, whatever the uniform
draws are (each developer loses either nothing or one full week); the
returned count is a natural number, so it is also at least 0. -/
theorem c10_vacation_days_bounded (p : Project) (draw : ℕ → ℚ) :
    probabilistic_weekly_person_days_lost_to_vacations (some p) draw ≤
      p.developer_count * p.work_days_per_week := by
  simp only [probabilistic_weekly_person_days_lost_to_vacations]
  split
  · exact Nat.zero_le _
  · calc ((List.range p.developer_count).countP (fun i => decide (draw i ≤ 1)))
          * p.work_days_per_week
        ≤ (List.range p.developer_count).length * p.work_days_per_week :=
          Nat.mul_le_mul_right _ (List.countP_le_length _)
      _ = p.developer_count * p.work_days_per_week := by rw [List.length_range]

/-- C8: constructing a task succeeds exactly when
`0 ≤ optimistic ≤ likely ≤ pessimistic`, and a constructed task satisfies
all three inequalities. -/
theorem c8_task_validation (o l pe : ℚ) :
    ((∃ t, mkTask o l pe = .ok t) ↔ (0 ≤ o ∧ o ≤ l ∧ l ≤ pe)) ∧
    (∀ t, mkTask o l pe = .ok t →
      0 ≤ t.optimistic ∧ t.optimistic ≤ t.likely ∧ t.likely ≤ t.pessimistic) := by
  unfold mkTask
  constructor
  · constructor
    · rintro ⟨t, ht⟩
      split_ifs at ht with h1 h2 h3 <;> cases ht
      exact ⟨not_lt.mp h1, not_lt.mp h2, not_lt.mp h3⟩
    · rintro ⟨h1, h2, h3⟩
      rw [if_neg (not_lt.mpr h1), if_neg (not_lt.mpr h2), if_neg (not_lt.mpr h3)]
      exact ⟨_, rfl⟩
  · intro t ht
    split_ifs at ht with h1 h2 h3 <;> cases ht
    exact ⟨not_lt.mp h1, not_lt.mp h2, not_lt.mp h3⟩

/-- Witness for C8 at the concrete estimates (3, 5, 10). -/
theorem c8_task_validation_witness :
    (0 ≤ (3:ℚ) ∧ (3:ℚ) ≤ 5 ∧ (5:ℚ) ≤ 10) ∧ (∃ t, mkTask 3 5 10 = .ok t) :=
  ⟨by norm_num, (c8_task_validation 3 5 10).1.mpr (by norm_num)⟩

/-- C9: `average` and `stddev` compute the documented formulas; at the
estimates (3, 5, 10) they are 11/2 and 7/6; `variance` is the square root
of `stddev` (so its square recovers `stddev`), and it differs from the
squared standard deviation. -/
theorem c9_task_derived_formulas :
    (∀ t : Task, t.average = (t.optimistic + 4 * t.likely + t.pessimistic) / 6 ∧
      t.stddev = (t.pessimistic - t.optimistic) / 6) ∧
    taskC9.average = 11/2 ∧ taskC9.stddev = 7/6 ∧
    (∀ t : Task, 0 ≤ t.stddev → t.variance ^ 2 = (t.stddev : ℝ)) ∧
    taskC9.variance ≠ ((taskC9.stddev : ℝ)) ^ 2 := by
  refine ⟨fun t => ⟨by unfold Task.average; ring, rfl⟩,
    by norm_num [Task.average, taskC9],
    by norm_num [Task.stddev, taskC9],
    fun t ht => Real.sq_sqrt (by exact_mod_cast ht), ?_⟩
  have hst : (taskC9.stddev : ℝ) = 7/6 := by norm_num [Task.stddev, taskC9]
  rw [Task.variance, hst]
  exact ne_of_lt ((Real.sqrt_lt' (by norm_num)).mpr (by norm_num))

/-- Witness for C9: the variance property applied to the task (3, 5, 10). -/
theorem c9_task_derived_formulas_witness :
    0 ≤ taskC9.stddev ∧ taskC9.variance ^ 2 = (taskC9.stddev : ℝ) :=
  ⟨by norm_num [Task.stddev, taskC9],
    c9_task_derived_formulas.2.2.2.1 taskC9 (by norm_num [Task.stddev, taskC9])⟩

/-- A project with no tasks and no task groups at all. -/
def noTasksProject : Project :=
  { start_date := 0
    developer_count := 1
    weeks_off_per_year := 0
    weekly_work_days := [0, 1, 2, 3, 4]
    work_hours_per_day := 8
    communication_penalty := 1/2
    tasks := []
    task_groups := []
    is_holiday := noHolidays }

/-- C6 counterexample: a project with no task and a single task group that
contains no tasks does not terminate in the Error state: the validation
only checks that the group list is nonempty, so the run completes with a
success result. -/
theorem c6_counterexample :
    emptyGroupProject.tasks = [] ∧
    emptyGroupProject.task_groups.all (fun g => g.tasks.isEmpty) = true ∧
    (Iteration.run zeroOracle (some emptyGroupProject) 5).result =
      some { status := .success, message := some "Process completed.",
             attributes := some { start_date := 1, end_date := 1 } } ∧
    IterationResultStatus.success ≠ IterationResultStatus.failure := by
  refine ⟨rfl, rfl, ?_, by simp⟩
  norm_num [Iteration.run, initContext, IterationContext.process, emptyGroupProject,
    probabilistic_estimated_project_person_days, normal_draws_sum, Task.average, Task.stddev,
    probabilistic_weekly_person_days_lost_to_vacations,
    Project.person_days_lost_to_holidays_this_week, Project.max_person_days_per_week,
    Project.work_week_hours, Project.work_days_per_week, Project.num_communication_channels,
    Project.working_days_this_week, noHolidays, zeroOracle, List.range_succ, weekday,
    failureResult]

/-- C6 amended: a run with no project terminates in Error with message
"No project was provided."; a run with a project whose `tasks` list and
`task_groups` list are both empty terminates in Error with message
"No tasks were present in the project."; in both cases no demand sample is
drawn (`person_days_remaining` stays `None`) and the cursor is never set.
(A nonempty `task_groups` list passes validation even if every group is
empty: the code does not look inside the groups.) -/
theorem c6_validation_failures :
    (∀ (o : Oracle) (n : ℕ), 2 ≤ n →
      (Iteration.run o none n).result = some (failureResult "No project was provided.") ∧
      (Iteration.run o none n).current_date = none ∧
      (Iteration.run o none n).person_days_remaining = none) ∧
    (∀ (p : Project) (o : Oracle) (n : ℕ), 2 ≤ n → p.tasks = [] → p.task_groups = [] →
      (Iteration.run o (some p) n).result =
        some (failureResult "No tasks were present in the project.") ∧
      (Iteration.run o (some p) n).current_date = none ∧
      (Iteration.run o (some p) n).person_days_remaining = none) := by
  constructor
  · intro o n hn
    have key : (Iteration.run o none 2).result = some (failureResult "No project was provided.") ∧
        (Iteration.run o none 2).current_date = none ∧
        (Iteration.run o none 2).person_days_remaining = none := by
      refine ⟨?_, ?_, ?_⟩ <;> simp [Iteration.run, IterationContext.process, initContext]
    obtain ⟨k, rfl⟩ : ∃ k, n = 2 + k := ⟨n - 2, by omega⟩
    rw [run_frozen o none 2 (Or.inl (by rw [key.1]; rfl)) k]
    exact key
  · intro p o n hn hpt hpg
    have key : (Iteration.run o (some p) 2).result =
        some (failureResult "No tasks were present in the project.") ∧
        (Iteration.run o (some p) 2).current_date = none ∧
        (Iteration.run o (some p) 2).person_days_remaining = none := by
      refine ⟨?_, ?_, ?_⟩ <;>
        simp [Iteration.run, IterationContext.process, initContext, hpt, hpg]
    obtain ⟨k, rfl⟩ : ∃ k, n = 2 + k := ⟨n - 2, by omega⟩
    rw [run_frozen o (some p) 2 (Or.inl (by rw [key.1]; rfl)) k]
    exact key

/-- Witness for the amended C6: the no-tasks validation failure at a
concrete empty project. -/
theorem c6_validation_failures_witness :
    (Iteration.run zeroOracle (some noTasksProject) 2).result =
      some (failureResult "No tasks were present in the project.") ∧
    (Iteration.run zeroOracle (some noTasksProject) 2).current_date = none ∧
    (Iteration.run zeroOracle (some noTasksProject) 2).person_days_remaining = none :=
  c6_validation_failures.2 noTasksProject zeroOracle 2 (by norm_num) rfl rfl

/-- C4: whenever a run of the iteration produces a result with status
success, the result's attributes hold equal start and end dates, and that
date is a configured working day that is not a holiday (it is the cursor
date at which Finalizing fired, which the machine does not move
afterwards). -/
theorem c4_success_lands_on_working_day (p : Project) (o : Oracle) (n : ℕ)
    (r : IterationResult) (hr : (Iteration.run o (some p) n).result = some r)
    (hs : r.status = .success) :
    ∃ d : Date, r.attributes = some { start_date := d, end_date := d } ∧
      weekday d ∈ p.weekly_work_days ∧ p.is_holiday d = false :=
  (run_resultInv o p n).2.2 r hr hs

/-- Witness for C4: the successful run on `emptyGroupProject` ends on day
1 (a Tuesday), which is indeed a configured working non-holiday day. -/
theorem c4_success_lands_on_working_day_witness :
    ∃ d : Date,
      ({ status := .success, message := some "Process completed.",
         attributes := some { start_date := 1, end_date := 1 } } : IterationResult).attributes =
        some { start_date := d, end_date := d } ∧
      weekday d ∈ emptyGroupProject.weekly_work_days ∧
      emptyGroupProject.is_holiday d = false :=
  c4_success_lands_on_working_day emptyGroupProject zeroOracle 5 _
    (by norm_num [Iteration.run, initContext, IterationContext.process, emptyGroupProject,
      probabilistic_estimated_project_person_days, normal_draws_sum, Task.average, Task.stddev,
      probabilistic_weekly_person_days_lost_to_vacations,
      Project.person_days_lost_to_holidays_this_week, Project.max_person_days_per_week,
      Project.work_week_hours, Project.work_days_per_week, Project.num_communication_channels,
      Project.working_days_this_week, noHolidays, zeroOracle, List.range_succ, weekday,
      failureResult])
    rfl

/-- C3: aggregating `N` all-successful results with requested iteration
count `N` yields a date-ascending outcome list whose totals are the bucket
multiplicities and sum to `N`, whose probability at each date is the
cumulative success count up to and including that date divided by `N`,
with strictly increasing probabilities, all at most 1, and 1 attained. -/
theorem c3_aggregation_all_success (results : List IterationResult) (N : ℕ)
    (hlen : results.length = N) (hpos : 0 < N)
    (hok : ∀ r ∈ results, r.status = .success ∧ r.attributes.isSome = true) :
    ∃ out, process_results results N = some out ∧
      (out.map Prod.fst).Sorted (· < ·) ∧
      (out.map (fun x => x.2.total)).sum = N ∧
      (∀ x ∈ out, x.2.total = (success_end_dates results).count x.1 ∧
        x.2.probability =
          (((success_end_dates results).countP (fun e => e ≤ x.1) : ℕ) : ℚ) / (N : ℚ)) ∧
      (out.map (fun x => x.2.probability)).Sorted (· < ·) ∧
      (∀ x ∈ out, x.2.probability ≤ 1) ∧
      (∃ x ∈ out, x.2.probability = 1) := by
  classical
  set dates := success_end_dates results with hdates_def
  set keys := List.insertionSort (· ≤ ·) dates.dedup with hkeys_def
  set out := monte_carlo_outcomes dates N keys 0 with hout_def
  have hguard : ∀ r ∈ results, r.status = .success → r.attributes.isSome = true :=
    fun r hr _ => (hok r hr).2
  have hpr : process_results results N = some out := by
    unfold process_results
    rw [if_pos hguard]
  have hdlen : dates.length = N := by
    rw [hdates_def, success_end_dates_length results hok]; exact hlen
  have hkperm : keys.Perm dates.dedup := List.perm_insertionSort _ _
  have hknodup : keys.Nodup := hkperm.nodup_iff.mpr (List.nodup_dedup _)
  have hkle : keys.Sorted (· ≤ ·) := List.sorted_insertionSort _ _
  have hklt : keys.Sorted (· < ·) := (hkle.and hknodup).imp fun h => lt_of_le_of_ne h.1 h.2
  have hkmem : ∀ x, x ∈ keys ↔ x ∈ dates := fun x => hkperm.mem_iff.trans List.mem_dedup
  have hfst : out.map Prod.fst = keys := monte_carlo_outcomes_fst dates N keys 0
  have hspec : ∀ x ∈ out,
      x.2.total = dates.count x.1 ∧
      x.2.probability = ((dates.countP (fun y => y ≤ x.1) : ℕ) : ℚ) / (N : ℚ) := by
    have h0 : dates.countP (fun y => y ∈ ([] : List Date)) = 0 := by simp
    have hs : (([] : List Date) ++ keys).Sorted (· < ·) := by simpa using hklt
    have hc : ∀ x ∈ dates, x ∈ ([] : List Date) ++ keys := by
      intro x hx; simpa using (hkmem x).mpr hx
    have hres := monte_carlo_outcomes_spec dates N keys [] hs hc
    rw [h0] at hres
    exact hres
  have hNpos : (0:ℚ) < (N:ℚ) := by exact_mod_cast hpos
  have hpairfst : out.Pairwise (fun a b => a.1 < b.1) := by
    have h2 := hklt
    rw [← hfst] at h2
    exact List.pairwise_map.mp h2
  have hpairprob : out.Pairwise (fun a b => a.2.probability < b.2.probability) := by
    refine hpairfst.imp_of_mem ?_
    intro a b ha hb hlt
    rw [(hspec a ha).2, (hspec b hb).2]
    have hbmem : b.1 ∈ dates := by
      refine (hkmem b.1).mp ?_
      rw [← hfst]
      exact List.mem_map.mpr ⟨b, hb, rfl⟩
    have hdisj : ∀ y ∈ dates, ¬((decide (y ≤ a.1)) = true ∧ (y == b.1) = true) := by
      rintro y _ ⟨h1, h2⟩
      have h3 : y = b.1 := by simpa using h2
      have h4 : y ≤ a.1 := by simpa using h1
      exact absurd (h3 ▸ h4) (not_le.mpr hlt)
    have hmono : dates.countP (fun y => (decide (y ≤ a.1)) || (y == b.1)) ≤
        dates.countP (fun y => y ≤ b.1) := by
      refine List.countP_mono_left fun y hy h => ?_
      simp only [Bool.or_eq_true, decide_eq_true_eq, beq_iff_eq] at h
      simp only [decide_eq_true_eq]
      rcases h with h | rfl
      · exact le_trans h (le_of_lt hlt)
      · exact le_refl _
    have hcnt : 0 < dates.count b.1 := List.count_pos_iff.mpr hbmem
    have hor := countP_or_of_disjoint dates _ _ hdisj
    have hstrict : dates.countP (fun y => y ≤ a.1) < dates.countP (fun y => y ≤ b.1) := by
      rw [List.count_eq_countP] at hcnt
      omega
    rw [div_lt_div_iff_of_pos_right hNpos]
    exact_mod_cast hstrict
  refine ⟨out, hpr, hfst ▸ hklt, ?_, hspec, List.pairwise_map.mpr hpairprob, ?_, ?_⟩
  · rw [monte_carlo_outcomes_totals dates N keys 0,
      sum_count_of_cover keys dates hknodup (fun x hx => (hkmem x).mpr hx), hdlen]
  · intro x hx
    rw [(hspec x hx).2, div_le_one hNpos]
    have := (List.countP_le_length (l := dates) (fun y => y ≤ x.1)).trans (le_of_eq hdlen)
    exact_mod_cast this
  · have hkne : keys ≠ [] := by
      have hlp : 0 < dates.length := hdlen ▸ hpos
      obtain ⟨y, hy⟩ := List.exists_mem_of_ne_nil dates (List.ne_nil_of_length_pos hlp)
      intro hke
      have hyk : y ∈ keys := (hkmem y).mpr hy
      rw [hke] at hyk
      exact List.not_mem_nil y hyk
    have hdmax_mem : keys.getLast hkne ∈ out.map Prod.fst := by
      rw [hfst]; exact List.getLast_mem hkne
    obtain ⟨x, hxout, hx1⟩ := List.mem_map.mp hdmax_mem
    refine ⟨x, hxout, ?_⟩
    rw [(hspec x hxout).2, hx1]
    have hall : dates.countP (fun y => y ≤ keys.getLast hkne) = dates.length := by
      refine List.countP_eq_length.mpr fun y hy => ?_
      simp only [decide_eq_true_eq]
      exact sorted_le_getLast keys hkne hkle y ((hkmem y).mpr hy)
    rw [hall, hdlen]
    exact div_self (ne_of_gt hNpos)

/-- Witness for C3: two successful results, requested count 2. -/
theorem c3_aggregation_all_success_witness :
    ∃ out, process_results [successOn5, successOn3] 2 = some out ∧
      (out.map Prod.fst).Sorted (· < ·) ∧
      (out.map (fun x => x.2.total)).sum = 2 ∧
      (∀ x ∈ out, x.2.total = (success_end_dates [successOn5, successOn3]).count x.1 ∧
        x.2.probability =
          (((success_end_dates [successOn5, successOn3]).countP (fun e => e ≤ x.1) : ℕ) : ℚ) /
            ((2 : ℕ) : ℚ)) ∧
      (out.map (fun x => x.2.probability)).Sorted (· < ·) ∧
      (∀ x ∈ out, x.2.probability ≤ 1) ∧
      (∃ x ∈ out, x.2.probability = 1) :=
  c3_aggregation_all_success [successOn5, successOn3] 2 rfl (by norm_num)
    (by simp [successOn5, successOn3])

/-- C7: aggregation is order independent: permuting the iteration results
leaves the outcome mapping unchanged, and a failure result contributes
nothing wherever it sits in the list. -/
theorem c7_process_results_order_independent :
    (∀ (results₁ results₂ : List IterationResult) (iterations : ℕ),
      results₁.Perm results₂ →
      process_results results₁ iterations = process_results results₂ iterations) ∧
    (∀ (results₁ results₂ : List IterationResult) (f : IterationResult) (iterations : ℕ),
      f.status = .failure →
      process_results (results₁ ++ f :: results₂) iterations =
        process_results (results₁ ++ results₂) iterations) := by
  constructor
  · intro l₁ l₂ N hp
    unfold process_results
    have hguard : (∀ r ∈ l₁, r.status = .success → r.attributes.isSome = true) ↔
        (∀ r ∈ l₂, r.status = .success → r.attributes.isSome = true) :=
      ⟨fun h r hr => h r (hp.mem_iff.mpr hr), fun h r hr => h r (hp.mem_iff.mp hr)⟩
    by_cases hg : ∀ r ∈ l₁, r.status = .success → r.attributes.isSome = true
    · rw [if_pos hg, if_pos (hguard.mp hg)]
      have hdates : (success_end_dates l₁).Perm (success_end_dates l₂) := hp.filterMap _
      have hkeys : List.insertionSort (· ≤ ·) (success_end_dates l₁).dedup =
          List.insertionSort (· ≤ ·) (success_end_dates l₂).dedup :=
        List.eq_of_perm_of_sorted
          ((List.perm_insertionSort _ _).trans (hdates.dedup.trans
            (List.perm_insertionSort _ _).symm))
          (List.sorted_insertionSort _ _) (List.sorted_insertionSort _ _)
      exact congrArg some
        (by rw [hkeys]; exact monte_carlo_outcomes_congr _ _ N (fun d => hdates.count_eq d) _ 0)
    · rw [if_neg hg, if_neg (fun h => hg (hguard.mpr h))]
  · intro l₁ l₂ f N hf
    unfold process_results
    have hguard : (∀ r ∈ l₁ ++ f :: l₂, r.status = .success → r.attributes.isSome = true) ↔
        (∀ r ∈ l₁ ++ l₂, r.status = .success → r.attributes.isSome = true) := by
      constructor
      · intro h r hr
        rcases List.mem_append.mp hr with h1 | h2
        · exact h r (List.mem_append_left _ h1)
        · exact h r (List.mem_append_right _ (List.mem_cons_of_mem f h2))
      · intro h r hr
        rcases List.mem_append.mp hr with h1 | h2
        · exact h r (List.mem_append_left _ h1)
        · rcases List.mem_cons.mp h2 with rfl | h3
          · intro hs; rw [hf] at hs; cases hs
          · exact h r (List.mem_append_right _ h3)
    have hdates : success_end_dates (l₁ ++ f :: l₂) = success_end_dates (l₁ ++ l₂) := by
      simp only [success_end_dates, List.filterMap_append, List.filterMap_cons, hf]
    by_cases hg : ∀ r ∈ l₁ ++ f :: l₂, r.status = .success → r.attributes.isSome = true
    · rw [if_pos hg, if_pos (hguard.mp hg), hdates]
    · rw [if_neg hg, if_neg (fun h => hg (hguard.mpr h))]

/-- Witness for C7: swapping two success results leaves the outcome map
unchanged. -/
theorem c7_process_results_order_independent_witness :
    process_results [successOn5, successOn3] 2 = process_results [successOn3, successOn5] 2 :=
  c7_process_results_order_independent.1 [successOn5, successOn3] [successOn3, successOn5] 2
    (List.Perm.swap successOn3 successOn5 [])

/-- C2 (code bug): the preflight check raises the configuration
`RuntimeError` on a project with non-positive weekly capacity, as claimed;
but with positive capacity and one requested iteration `run` does not
complete: the per-iteration observer notification reads the undefined name
`i` and a `NameError` propagates. -/
theorem c2_monte_carlo_run_errors :
    MonteCarlo.run project2020 1 = .error (.nameError "i") ∧
    0 < project2020.max_person_days_per_week ∧
    MonteCarlo.run preflightProject 1000 = .error (.runtimeError preflight_message) ∧
    preflightProject.max_person_days_per_week ≤ 0 := by
  norm_num [MonteCarlo.run, project2020, preflightProject, Project.max_person_days_per_week,
    Project.work_week_hours, Project.work_days_per_week, Project.num_communication_channels]

end SPE
